import Mathlib

/-!
# Verification of the Google-for-Jobs visibility tracker (`app.py`)

A shallow embedding of the visibility-scoring engine and the historical
aggregation layer of `app.py`, together with theorems settling the spec
claims about them.

Conventions of the embedding:
* Python floats are modelled as exact rationals (`ℚ`); `round(x, n)` is
  modelled as exact decimal rounding with ties-to-even (Python's rounding
  mode on exact values).
* Python dicts / `defaultdict`s are modelled as insertion-ordered
  association lists, updated in place like the source's `d[k] += v`.
* `tldextract.extract` is an external library; the embedding of
  `extract_domain` is parametric in it (a function `String → Extracted`
  giving the `domain`/`suffix` fields that the source interpolates).
* The external SerpAPI fetch either returns a list of results or raises;
  `compute_sov` is therefore given the per-query fetch outcomes as input,
  and a second entry point (`compute_sovE`) keeps the `Except` layer to
  model exception propagation out of the query loop.
-/

set_option maxRecDepth 40000

/-- Output of `tldextract.extract` as used by `extract_domain`
(`app.py` line 243): only the `domain` and `suffix` fields are read. -/
structure Extracted where
  domain : String
  suffix : String
deriving DecidableEq, Repr

/-- One entry of a result's `apply_options` list; the `"link"` key may be
absent (`app.py` line 222 checks `if "link" in option`). -/
structure ApplyOption where
  link : Option String
deriving DecidableEq, Repr

/-- One job listing from a query's result page; `job.get("apply_options", [])`
(`app.py` line 217) makes an absent list the empty list. -/
structure SearchResult where
  apply_options : List ApplyOption
deriving DecidableEq, Repr

/-- Python `str.lower()` on ASCII strings: `Char.toLower` lower-cases
exactly `A`-`Z`, which coincides with Python on ASCII (Python also
lower-cases many non-ASCII codepoints, which `Char.toLower` leaves
unchanged, so every concrete URL and domain in this file is ASCII). -/
def pyLower (s : String) : String := ⟨s.data.map Char.toLower⟩

/-- Left-to-right removal of every non-overlapping occurrence of `"www."`:
Python's `.replace("www.", "")` at the fixed pattern and replacement the
source uses. -/
def stripWWW : List Char → List Char
  | 'w' :: 'w' :: 'w' :: '.' :: rest => stripWWW rest
  | c :: rest => c :: stripWWW rest
  | [] => []

/-- `s.replace("www.", "")` on a Lean string. -/
def pyStripWWW (s : String) : String := ⟨stripWWW s.data⟩

/-- `extract_domain` (`app.py` lines 242-245): interpolates
`f"{extracted.domain}.{extracted.suffix}"` when the suffix is nonempty,
else the bare domain label, then lower-cases and deletes every
occurrence of `"www."`. -/
def extract_domain (tldex : String → Extracted) (url : String) : String :=
  let extracted := tldex url
  let domain :=
    if extracted.suffix ≠ "" then extracted.domain ++ "." ++ extracted.suffix
    else extracted.domain
  pyStripWWW (pyLower domain)

/-- Lookup in an insertion-ordered association list (a Python dict). -/
def alookup {α : Type} (k : String) : List (String × α) → Option α
  | [] => none
  | (k', v) :: rest => if k' = k then some v else alookup k rest

/-- `defaultdict` mutation `m[k] = f(m[k])` where a missing key reads as
the default `d`: updates the entry in place, or appends a fresh entry at
the end (Python dicts preserve insertion order). -/
def upd {α : Type} (m : List (String × α)) (k : String) (f : α → α) (d : α) :
    List (String × α) :=
  match m with
  | [] => [(k, f d)]
  | (k', v) :: rest => if k' = k then (k', f v) :: rest else (k', v) :: upd rest k f d

/-- The four accumulator dicts of `compute_sov` plus the running
`total_sov` (`app.py` lines 202-208). -/
structure SovState where
  domain_sov : List (String × ℚ)
  domain_appearances : List (String × ℕ)
  domain_v_rank : List (String × List ℕ)
  domain_h_rank : List (String × List ℕ)
  total_sov : ℚ
deriving DecidableEq, Repr

/-- Fresh accumulators at the start of a run. -/
def initState : SovState :=
  { domain_sov := [], domain_appearances := [], domain_v_rank := [],
    domain_h_rank := [], total_sov := 0 }

/-- Body of the inner loop of `compute_sov` (`app.py` lines 222-231): for an
option carrying a `"link"`, extract the domain, accumulate
`weight = (1/job_rank) * (1/link_order)` into the four dicts and into
`total_sov`; an option without a link contributes nothing. -/
def processOption (tldex : String → Extracted) (job_rank link_order : ℕ)
    (st : SovState) (option : ApplyOption) : SovState :=
  match option.link with
  | none => st
  | some url =>
    let domain := extract_domain tldex url
    let V : ℚ := 1 / (job_rank : ℚ)
    let H : ℚ := 1 / (link_order : ℚ)
    let weight := V * H
    { domain_sov := upd st.domain_sov domain (· + weight) 0
      domain_appearances := upd st.domain_appearances domain (· + 1) 0
      domain_v_rank := upd st.domain_v_rank domain (· ++ [job_rank]) []
      domain_h_rank := upd st.domain_h_rank domain (· ++ [link_order]) []
      total_sov := st.total_sov + weight }

/-- The two nested `enumerate(..., start=1)` loops of `compute_sov`
(`app.py` lines 216-231) over one query's fetched results. -/
def processJobs (tldex : String → Extracted) (st : SovState)
    (jobs : List SearchResult) : SovState :=
  (List.enumFrom 1 jobs).foldl
    (fun st rj =>
      (List.enumFrom 1 rj.2.apply_options).foldl
        (fun st ho => processOption tldex rj.1 ho.1 st ho.2) st)
    st

/-- The outer query loop of `compute_sov` (`app.py` lines 210-231), given
the already-fetched result list of each query. -/
def runQueries (tldex : String → Extracted)
    (fetched : List (List SearchResult)) : SovState :=
  fetched.foldl (processJobs tldex) initState

/-- The accumulated `total_sov` of a run. -/
def totalOf (tldex : String → Extracted)
    (fetched : List (List SearchResult)) : ℚ :=
  (runQueries tldex fetched).total_sov

/-- Round a rational to the nearest integer, ties to even: the rounding of
Python's `round` on exact values. -/
def roundHalfEven (x : ℚ) : ℤ :=
  if Int.fract x < 1/2 then ⌊x⌋
  else if 1/2 < Int.fract x then ⌊x⌋ + 1
  else if ⌊x⌋ % 2 = 0 then ⌊x⌋ else ⌊x⌋ + 1

/-- Python `round(x, ndigits)` on exact values. -/
def pyround (ndigits : ℕ) (x : ℚ) : ℚ :=
  (roundHalfEven (x * 10 ^ ndigits) : ℚ) / 10 ^ ndigits

/-- Result tuple of `compute_sov` (`app.py` line 239). -/
structure SovResult where
  domain_sov : List (String × ℚ)
  domain_appearances : List (String × ℕ)
  domain_avg_v_rank : List (String × ℚ)
  domain_avg_h_rank : List (String × ℚ)
deriving DecidableEq, Repr

/-- The normalization and averaging tail of `compute_sov`
(`app.py` lines 233-239): if `total_sov > 0` replace each raw weight by
`round(sov / total_sov * 100, 4)`, otherwise return the raw dict
unchanged; average ranks are rounded to 2 decimals. -/
def finalize (st : SovState) : SovResult :=
  { domain_sov :=
      if st.total_sov > 0 then
        st.domain_sov.map (fun p => (p.1, pyround 4 (p.2 / st.total_sov * 100)))
      else st.domain_sov
    domain_appearances := st.domain_appearances
    domain_avg_v_rank :=
      st.domain_v_rank.map
        (fun p => (p.1, pyround 2 ((p.2.map (fun n => (n : ℚ))).sum / (p.2.length : ℚ))))
    domain_avg_h_rank :=
      st.domain_h_rank.map
        (fun p => (p.1, pyround 2 ((p.2.map (fun n => (n : ℚ))).sum / (p.2.length : ℚ)))) }

/-- `compute_sov` (`app.py` lines 201-239) on the fetched per-query
results of a run. -/
def compute_sov (tldex : String → Extracted)
    (fetched : List (List SearchResult)) : SovResult :=
  finalize (runQueries tldex fetched)

/-- The query loop with the `Except` layer of the external fetch kept:
the operative `compute_sov` (`app.py` line 214) calls
`get_google_jobs_results` with no surrounding `try`, so the first failing
fetch propagates out and aborts the loop. -/
def runQueriesE (tldex : String → Extracted) :
    SovState → List (Except String (List SearchResult)) → Except String SovState
  | st, [] => .ok st
  | _, (.error e) :: _ => .error e
  | st, (.ok jobs) :: rest => runQueriesE tldex (processJobs tldex st jobs) rest

/-- `compute_sov` as run against fallible fetches: a raised fetch error
escapes the whole function. -/
def compute_sovE (tldex : String → Extracted)
    (fetched : List (Except String (List SearchResult))) : Except String SovResult :=
  (runQueriesE tldex initState fetched).map finalize

/-- Sum of the values of an association list. -/
def sumVals (m : List (String × ℚ)) : ℚ := (m.map Prod.snd).sum

/-- A `tldextract` stub for URL strings that are already bare lower-case
single-label hosts: `tldextract.extract` returns them as the `domain`
field with an empty suffix. -/
def tldexSimple : String → Extracted := fun url => ⟨url, ""⟩

/-- A `tldextract` stub for the two demo apply links of the end-to-end
scenario. -/
def tldexDemo : String → Extracted := fun url =>
  if url = "https://a.com/apply" then ⟨"a", "com"⟩
  else if url = "https://b.com/apply" then ⟨"b", "com"⟩
  else ⟨"", ""⟩

/-- The end-to-end scenario input: query A returns one result at rank 1
with apply options linking to `a.com` then `b.com`; query B's relevant
result sits at rank 2 (below a result with no apply options) with one
option linking to `a.com`. -/
def scenarioInput : List (List SearchResult) :=
  [ [ { apply_options := [ { link := some "https://a.com/apply" },
                           { link := some "https://b.com/apply" } ] } ],
    [ { apply_options := [] },
      { apply_options := [ { link := some "https://a.com/apply" } ] } ] ]

/-- A run of independent single-result, single-link queries: query `i`
returns one result at rank 1 whose only apply option links to `ds[i]`.
Every processed link then carries weight `1`. -/
def uniformInput (ds : List String) : List (List SearchResult) :=
  ds.map (fun d => [ { apply_options := [ { link := some d } ] } ])

/-- 280 pairwise-distinct two-character ASCII lower-case domain strings
over the letters `a`-`q` (codepoints 97-113).  All characters are ASCII
lower-case, so Python's `str.lower()` is the identity on them exactly as
the embedded `pyLower` is, and none contains `w`, let alone `"www."`. -/
def bigDomains : List String :=
  (List.range 280).map (fun i =>
    String.mk [Char.ofNat (97 + i / 17), Char.ofNat (97 + i % 17)])

/-- A run whose links resolve to three equally weighted domains. -/
def threeInput : List (List SearchResult) := uniformInput ["a", "b", "c"]

/-- One result at rank 1 whose two options link to `"a"` and to the empty
URL (which `tldextract` maps to an empty domain and empty suffix). -/
def emptyDomainInput : List (List SearchResult) :=
  [ [ { apply_options := [ { link := some "a" }, { link := some "" } ] } ] ]

/-- A run in which the only present link key is absent, so no link is ever
processed and the accumulated total weight is `0`. -/
def noSignalInput : List (List SearchResult) :=
  [ [ { apply_options := [ { link := none } ] } ] ]

/-- A single search result used in concrete fetch-failure runs. -/
def oneJob : SearchResult := { apply_options := [ { link := some "a" } ] }

/-- The weight model realized inline by `V = 1 / job_rank`
(`app.py` line 219), read as a function of an arbitrary integer rank:
Python's division raises `ZeroDivisionError` at rank 0 (modelled as
`none`) and returns `1/r` (negative for `r < 0`) otherwise. -/
def verticalWeight (r : ℤ) : Option ℚ :=
  if r = 0 then none else some (1 / (r : ℚ))

/-- The weight model realized inline by `H = 1 / link_order`
(`app.py` line 224), as a function of an arbitrary integer rank. -/
def horizontalWeight (h : ℤ) : Option ℚ :=
  if h = 0 then none else some (1 / (h : ℚ))

/-- One row of the `share_of_voice` table as read back by
`get_historical_data` (`app.py` lines 284-292); dates are encoded as day
numbers, so the SQL `BETWEEN` is an interval check on naturals. -/
structure HistRecord where
  domain : String
  date : ℕ
  sov : ℚ
  appearances : ℕ
  avg_v_rank : ℚ
  avg_h_rank : ℚ
deriving DecidableEq, Repr

/-- The SQL `WHERE date BETWEEN %s AND %s` filter
(`app.py` lines 284-288), inclusive on both ends. -/
def filterRange (s e : ℕ) (rs : List HistRecord) : List HistRecord :=
  rs.filter (fun r => decide (s ≤ r.date ∧ r.date ≤ e))

/-- One aggregated row of `df_agg` (`app.py` lines 301-306). -/
structure AggRow where
  sov : ℚ
  appearances : ℕ
  avg_v_rank : ℚ
  avg_h_rank : ℚ
deriving DecidableEq, Repr

/-- The rows of one `groupby(["domain", "date"])` group. -/
def matching (rs : List HistRecord) (d : String) (t : ℕ) : List HistRecord :=
  rs.filter (fun r => decide (r.domain = d ∧ r.date = t))

/-- The `groupby(["domain", "date"]).agg(...)` reduction of
`get_historical_data` (`app.py` lines 301-306), viewed at one
`(domain, date)` key: mean of `sov`, sum of `appearances`, mean of the
two rank fields; `none` when the key has no rows. -/
def aggAt (rs : List HistRecord) (d : String) (t : ℕ) : Option AggRow :=
  let ms := matching rs d t
  if ms = [] then none
  else some
    { sov := (ms.map (·.sov)).sum / (ms.length : ℚ)
      appearances := (ms.map (·.appearances)).sum
      avg_v_rank := (ms.map (·.avg_v_rank)).sum / (ms.length : ℚ)
      avg_h_rank := (ms.map (·.avg_h_rank)).sum / (ms.length : ℚ) }

/-- The date columns of the pivoted `df_sov` table: pandas `pivot` emits
the distinct dates as columns in ascending order (`app.py` line 309). -/
def sortedDates (rs : List HistRecord) : List ℕ :=
  List.insertionSort (· ≤ ·) (rs.map (·.date)).dedup

/-- The distinct domains indexing the pivoted tables. -/
def domainsOf (rs : List HistRecord) : List String :=
  (rs.map (·.domain)).dedup

/-- `most_recent_date = df_sov.columns[-1]` (`app.py` line 319): the last
date column of the pivot. -/
def mostRecent (rs : List HistRecord) : Option ℕ :=
  (sortedDates rs).getLast?

/-- One cell of the pivoted SoV table: the aggregated `sov` at
`(domain, date)`, with `fillna(0)` for missing cells (`app.py` line 309). -/
def sovCell (rs : List HistRecord) (d : String) (t : ℕ) : ℚ :=
  (aggAt rs d t).elim 0 (·.sov)

/-- The observable contract of
`df_sov.sort_values(by=most_recent_date, ascending=False)`
(`app.py` line 320): the displayed row order is a permutation of the
domain index that is non-increasing in the most-recent-date SoV column.
pandas' default `quicksort` is unstable and the source supplies no
secondary key, so the order of rows with equal values is not determined
beyond this contract. -/
def SortValuesOutput (rs : List HistRecord) (out : List String) : Prop :=
  match mostRecent rs with
  | none => out = []
  | some t =>
      out.Perm (domainsOf rs) ∧
      List.Chain' (fun a b => sovCell rs b t ≤ sovCell rs a t) out

/-- Lexicographic (ascending, character-by-character) comparison of
domain names — the order "domain name ascending" refers to. -/
def charListLe : List Char → List Char → Bool
  | [], _ => true
  | _ :: _, [] => false
  | a :: as, b :: bs => if a < b then true else if b < a then false else charListLe as bs

/-- `charListLe` on strings. -/
def strLeB (s t : String) : Bool := charListLe s.data t.data

/-- Modelled from the spec: the display order the spec prescribes —
domains sorted by most-recent-date SoV descending, ties broken by domain
name ascending. This is the spec's wording, not the source (which has no
tie-break); it exists to be compared against `SortValuesOutput`. -/
def specTieBreakOrder (rs : List HistRecord) : List String :=
  match mostRecent rs with
  | none => []
  | some t =>
      List.insertionSort
        (fun a b => sovCell rs b t < sovCell rs a t ∨
          (sovCell rs a t = sovCell rs b t ∧ strLeB a b = true))
        (domainsOf rs)

/-- Two same-day rows for domain `x` with SoV samples 10 and 20. -/
def histRec10 : HistRecord :=
  { domain := "x", date := 5, sov := 10, appearances := 3,
    avg_v_rank := 1, avg_h_rank := 1 }

/-- Companion row to `histRec10` (same domain and date, SoV 20). -/
def histRec20 : HistRecord :=
  { domain := "x", date := 5, sov := 20, appearances := 5,
    avg_v_rank := 2, avg_h_rank := 3 }

/-- Two domains tied at SoV 10 on the single date 1: the tie-break probe. -/
def tieRecords : List HistRecord :=
  [ { domain := "a", date := 1, sov := 10, appearances := 1,
      avg_v_rank := 1, avg_h_rank := 1 },
    { domain := "b", date := 1, sov := 10, appearances := 1,
      avg_v_rank := 1, avg_h_rank := 1 } ]

/-! ## Association-list lemmas -/

theorem alookup_upd {α : Type} (m : List (String × α)) (k k' : String)
    (f : α → α) (d : α) :
    alookup k' (upd m k f d) =
      if k = k' then some (f ((alookup k m).getD d)) else alookup k' m := by
  induction m with
  | nil =>
    by_cases h : k = k' <;> simp [upd, alookup, h]
  | cons p rest ih =>
    obtain ⟨k₀, v⟩ := p
    by_cases h0 : k₀ = k
    · subst h0
      by_cases h1 : k₀ = k' <;> simp [upd, alookup, h1]
    · by_cases h1 : k₀ = k'
      · subst h1
        have hne : ¬ k = k₀ := fun h => h0 h.symm
        simp [upd, alookup, h0, hne]
      · simp [upd, alookup, h0, h1, ih]

theorem upd_of_alookup_none {α : Type} {m : List (String × α)} {k : String}
    (f : α → α) (d : α) (h : alookup k m = none) :
    upd m k f d = m ++ [(k, f d)] := by
  induction m with
  | nil => simp [upd]
  | cons p rest ih =>
    obtain ⟨k₀, v⟩ := p
    by_cases h0 : k₀ = k
    · simp [alookup, h0] at h
    · simp [alookup, h0] at h
      simp [upd, h0, ih h]

theorem alookup_append_right {α : Type} {m : List (String × α)} {k : String}
    (m' : List (String × α)) (h : alookup k m = none) :
    alookup k (m ++ m') = alookup k m' := by
  induction m with
  | nil => simp
  | cons p rest ih =>
    obtain ⟨k₀, v⟩ := p
    by_cases h0 : k₀ = k
    · simp [alookup, h0] at h
    · simp [alookup, h0] at h ⊢
      exact ih h

theorem sumVals_upd_add (m : List (String × ℚ)) (k : String) (w : ℚ) :
    sumVals (upd m k (· + w) 0) = sumVals m + w := by
  induction m with
  | nil => simp [upd, sumVals]
  | cons p rest ih =>
    obtain ⟨k₀, v⟩ := p
    by_cases h0 : k₀ = k
    · simp [upd, h0, sumVals]
      ring
    · simp [upd, h0, sumVals] at ih ⊢
      rw [ih]
      ring

theorem pos_of_upd {m : List (String × ℚ)} {k : String} {w : ℚ}
    (hm : ∀ p ∈ m, 0 < p.2) (hw : 0 < w) :
    ∀ p ∈ upd m k (· + w) 0, 0 < p.2 := by
  induction m with
  | nil =>
    simp [upd]
    exact hw
  | cons q rest ih =>
    obtain ⟨k₀, v⟩ := q
    by_cases h0 : k₀ = k
    · simp [upd, h0]
      refine ⟨?_, ?_⟩
      · have hv : 0 < v := hm (k₀, v) (by simp)
        positivity
      · intro a b hab
        exact hm (a, b) (by simp [hab])
    · simp [upd, h0]
      refine ⟨hm (k₀, v) (by simp), ?_⟩
      intro a b hab
      exact ih (fun p hp => hm p (by simp [hp])) (a, b) hab

/-! ## Fold preservation through the scoring loops -/

theorem enumFrom_fst_ge {α : Type} :
    ∀ (l : List α) (n : ℕ) (p : ℕ × α), p ∈ List.enumFrom n l → n ≤ p.1 := by
  intro l
  induction l with
  | nil => intro n p hp; simp [List.enumFrom] at hp
  | cons x xs ih =>
    intro n p hp
    simp only [List.enumFrom, List.mem_cons] at hp
    rcases hp with h | h
    · subst h; exact le_refl n
    · exact Nat.le_of_succ_le (ih (n + 1) p h)

theorem foldl_options_preserve (P : SovState → Prop) (tldex : String → Extracted)
    (r : ℕ)
    (hP : ∀ h st opt, 1 ≤ h → P st → P (processOption tldex r h st opt)) :
    ∀ (opts : List ApplyOption) (h0 : ℕ), 1 ≤ h0 → ∀ st, P st →
      P ((List.enumFrom h0 opts).foldl
          (fun st ho => processOption tldex r ho.1 st ho.2) st) := by
  intro opts
  induction opts with
  | nil => intro h0 _ st hst; simpa [List.enumFrom] using hst
  | cons o os ih =>
    intro h0 hh0 st hst
    simp only [List.enumFrom, List.foldl_cons]
    exact ih (h0 + 1) (Nat.le_succ_of_le hh0) _ (hP h0 st o hh0 hst)

theorem foldl_jobs_preserve (P : SovState → Prop) (tldex : String → Extracted)
    (hP : ∀ r h st opt, 1 ≤ r → 1 ≤ h → P st → P (processOption tldex r h st opt)) :
    ∀ (jobs : List SearchResult) (r0 : ℕ), 1 ≤ r0 → ∀ st, P st →
      P ((List.enumFrom r0 jobs).foldl
          (fun st rj =>
            (List.enumFrom 1 rj.2.apply_options).foldl
              (fun st ho => processOption tldex rj.1 ho.1 st ho.2) st) st) := by
  intro jobs
  induction jobs with
  | nil => intro r0 _ st hst; simpa [List.enumFrom] using hst
  | cons j js ih =>
    intro r0 hr0 st hst
    simp only [List.enumFrom, List.foldl_cons]
    refine ih (r0 + 1) (Nat.le_succ_of_le hr0) _ ?_
    exact foldl_options_preserve P tldex r0
      (fun h st opt hh hst => hP r0 h st opt hr0 hh hst)
      j.apply_options 1 (le_refl 1) st hst

theorem processJobs_preserve (P : SovState → Prop) (tldex : String → Extracted)
    (hP : ∀ r h st opt, 1 ≤ r → 1 ≤ h → P st → P (processOption tldex r h st opt))
    (jobs : List SearchResult) (st : SovState) (hst : P st) :
    P (processJobs tldex st jobs) :=
  foldl_jobs_preserve P tldex hP jobs 1 (le_refl 1) st hst

theorem runQueries_preserve (P : SovState → Prop) (tldex : String → Extracted)
    (hP : ∀ r h st opt, 1 ≤ r → 1 ≤ h → P st → P (processOption tldex r h st opt))
    (hinit : P initState) (fetched : List (List SearchResult)) :
    P (runQueries tldex fetched) := by
  suffices h : ∀ (fs : List (List SearchResult)) (st : SovState), P st →
      P (fs.foldl (processJobs tldex) st) by
    exact h fetched initState hinit
  intro fs
  induction fs with
  | nil => intro st hst; simpa using hst
  | cons q qs ih =>
    intro st hst
    simpa using ih _ (processJobs_preserve P tldex hP q st hst)

/-! ## The accounting invariant of the accumulator -/

/-- The invariant connecting the accumulator dicts: the running total is
the sum of the per-domain raw weights, every recorded raw weight is
strictly positive, and the dict keys are distinct. -/
def GoodState (st : SovState) : Prop :=
  st.total_sov = sumVals st.domain_sov ∧ (∀ p ∈ st.domain_sov, 0 < p.2)

theorem goodState_init : GoodState initState := by
  constructor <;> simp [initState, sumVals]

theorem goodState_processOption (tldex : String → Extracted)
    (r h : ℕ) (st : SovState) (opt : ApplyOption)
    (hr : 1 ≤ r) (hh : 1 ≤ h) (hst : GoodState st) :
    GoodState (processOption tldex r h st opt) := by
  obtain ⟨htot, hpos⟩ := hst
  cases hopt : opt.link with
  | none => simpa [processOption, hopt] using ⟨htot, hpos⟩
  | some url =>
    have hw : 0 < (1 / (r : ℚ)) * (1 / (h : ℚ)) := by
      have hr' : 0 < (r : ℚ) := by exact_mod_cast hr
      have hh' : 0 < (h : ℚ) := by exact_mod_cast hh
      positivity
    constructor
    · simp only [processOption, hopt]
      rw [sumVals_upd_add, htot]
    · simp only [processOption, hopt]
      exact pos_of_upd hpos hw

theorem goodState_runQueries (tldex : String → Extracted)
    (fetched : List (List SearchResult)) :
    GoodState (runQueries tldex fetched) :=
  runQueries_preserve GoodState tldex
    (fun r h st opt hr hh hst => goodState_processOption tldex r h st opt hr hh hst)
    goodState_init fetched

/-! ## Rounding error bounds -/

theorem abs_roundHalfEven_sub (x : ℚ) : |(roundHalfEven x : ℚ) - x| ≤ 1/2 := by
  have h0 : (0 : ℚ) ≤ x - (⌊x⌋ : ℚ) := by
    have := Int.floor_le x; linarith
  have h1 : x - (⌊x⌋ : ℚ) < 1 := by
    have := Int.lt_floor_add_one x; linarith
  have hfr : Int.fract x = x - (⌊x⌋ : ℚ) := rfl
  unfold roundHalfEven
  split_ifs with hlt hgt heven
  · rw [hfr] at hlt
    rw [abs_sub_comm, abs_of_nonneg h0]
    linarith
  · rw [hfr] at hgt
    push_cast
    rw [abs_of_nonneg (by linarith : (0:ℚ) ≤ (⌊x⌋ : ℚ) + 1 - x)]
    linarith
  · have heq : Int.fract x = 1/2 := le_antisymm (not_lt.mp hgt) (not_lt.mp hlt)
    rw [hfr] at heq
    rw [abs_sub_comm, abs_of_nonneg h0]
    linarith
  · have heq : Int.fract x = 1/2 := le_antisymm (not_lt.mp hgt) (not_lt.mp hlt)
    rw [hfr] at heq
    push_cast
    rw [abs_of_nonneg (by linarith : (0:ℚ) ≤ (⌊x⌋ : ℚ) + 1 - x)]
    linarith

theorem abs_pyround_sub (n : ℕ) (x : ℚ) :
    |pyround n x - x| ≤ 1 / (2 * 10 ^ n) := by
  have hpow : (0 : ℚ) < 10 ^ n := by positivity
  have h := abs_roundHalfEven_sub (x * 10 ^ n)
  unfold pyround
  have heq : (roundHalfEven (x * 10 ^ n) : ℚ) / 10 ^ n - x
      = ((roundHalfEven (x * 10 ^ n) : ℚ) - x * 10 ^ n) / 10 ^ n := by
    field_simp
    ring
  rw [heq, abs_div, abs_of_pos hpow, div_le_div_iff₀ hpow (by positivity)]
  calc |(roundHalfEven (x * 10 ^ n) : ℚ) - x * 10 ^ n| * (2 * 10 ^ n)
      ≤ (1/2) * (2 * 10 ^ n) := by
        apply mul_le_mul_of_nonneg_right h (by positivity)
    _ = 1 * 10 ^ n := by ring

theorem sum_pyround4_bound (l : List ℚ) :
    |(l.map (pyround 4)).sum - l.sum| ≤ (l.length : ℚ) / 20000 := by
  induction l with
  | nil => simp
  | cons a as ih =>
    have ha := abs_pyround_sub 4 a
    have hcast : ((as.length + 1 : ℕ) : ℚ) = (as.length : ℚ) + 1 := by push_cast; ring
    simp only [List.map_cons, List.sum_cons, List.length_cons, hcast]
    have hre : pyround 4 a + (as.map (pyround 4)).sum - (a + as.sum)
        = (pyround 4 a - a) + ((as.map (pyround 4)).sum - as.sum) := by ring
    rw [hre]
    calc |(pyround 4 a - a) + ((as.map (pyround 4)).sum - as.sum)|
        ≤ |pyround 4 a - a| + |(as.map (pyround 4)).sum - as.sum| := abs_add _ _
      _ ≤ 1 / (2 * 10 ^ 4) + (as.length : ℚ) / 20000 := add_le_add ha ih
      _ = ((as.length : ℚ) + 1) / 20000 := by ring

theorem sum_map_mulConst (l : List ℚ) (c : ℚ) :
    (l.map (fun v => v * c)).sum = l.sum * c := by
  induction l with
  | nil => simp
  | cons a as ih =>
    simp only [List.map_cons, List.sum_cons, ih]
    ring

theorem eq_nil_of_sumVals_zero {m : List (String × ℚ)}
    (hpos : ∀ p ∈ m, 0 < p.2) (h : sumVals m = 0) : m = [] := by
  cases m with
  | nil => rfl
  | cons p rest =>
    exfalso
    have h1 : 0 < p.2 := hpos p (by simp)
    have h2 : 0 ≤ sumVals rest := by
      apply List.sum_nonneg
      intro x hx
      obtain ⟨q, hq, hqx⟩ := List.mem_map.mp hx
      exact hqx ▸ le_of_lt (hpos q (by simp [hq]))
    simp only [sumVals, List.map_cons, List.sum_cons] at h
    simp only [sumVals] at h2
    linarith

/-- Claim C1, amended: whenever the accumulated total weight is strictly
positive, the sum of the normalized `sov` values of the snapshot differs
from 100 by at most `n * 0.00005`, where `n` is the number of domains in
the snapshot (the source rounds each share to 4 decimal places, so each
domain contributes at most half an ulp of error; the fixed bound 0.01 of
the original claim holds only for snapshots of at most 200 domains). -/
theorem c1_amended (tldex : String → Extracted)
    (fetched : List (List SearchResult)) (hpos : 0 < totalOf tldex fetched) :
    |sumVals (compute_sov tldex fetched).domain_sov - 100|
      ≤ ((compute_sov tldex fetched).domain_sov.length : ℚ) / 20000 := by
  obtain ⟨htot, hposvals⟩ := goodState_runQueries tldex fetched
  set st := runQueries tldex fetched with hst
  have hT : 0 < st.total_sov := hpos
  have hTne : st.total_sov ≠ 0 := ne_of_gt hT
  have hfin : (compute_sov tldex fetched).domain_sov
      = st.domain_sov.map (fun p => (p.1, pyround 4 (p.2 / st.total_sov * 100))) := by
    simp [compute_sov, finalize, ← hst, hT]
  rw [hfin]
  have hsum : sumVals (st.domain_sov.map
      (fun p => (p.1, pyround 4 (p.2 / st.total_sov * 100))))
      = (((st.domain_sov.map Prod.snd).map
          (fun v => v / st.total_sov * 100)).map (pyround 4)).sum := by
    simp [sumVals, List.map_map, Function.comp_def]
  have hlen : (st.domain_sov.map
      (fun p => (p.1, pyround 4 (p.2 / st.total_sov * 100)))).length
      = ((st.domain_sov.map Prod.snd).map
          (fun v => v / st.total_sov * 100)).length := by
    simp
  rw [hsum, hlen]
  have hm : ((st.domain_sov.map Prod.snd).map
      (fun v => v / st.total_sov * 100)).sum = 100 := by
    have hfun : (fun v : ℚ => v / st.total_sov * 100)
        = (fun v : ℚ => v * (100 / st.total_sov)) := by
      funext v
      rw [div_mul_eq_mul_div, mul_div_assoc]
    rw [hfun, sum_map_mulConst]
    have : (st.domain_sov.map Prod.snd).sum = st.total_sov := by
      rw [htot]; rfl
    rw [this]
    field_simp
  calc |(((st.domain_sov.map Prod.snd).map
        (fun v => v / st.total_sov * 100)).map (pyround 4)).sum - 100|
      = |(((st.domain_sov.map Prod.snd).map
          (fun v => v / st.total_sov * 100)).map (pyround 4)).sum
        - ((st.domain_sov.map Prod.snd).map
            (fun v => v / st.total_sov * 100)).sum| := by rw [hm]
    _ ≤ _ := sum_pyround4_bound _

/-- Witness for `c1_amended` at the end-to-end scenario input, whose total
weight is 2. -/
theorem c1_amended_witness :
    0 < totalOf tldexDemo scenarioInput ∧
    |sumVals (compute_sov tldexDemo scenarioInput).domain_sov - 100|
      ≤ ((compute_sov tldexDemo scenarioInput).domain_sov.length : ℚ) / 20000 := by
  have hpos : 0 < totalOf tldexDemo scenarioInput := by
    norm_num [totalOf, runQueries, processJobs, processOption, initState,
      scenarioInput, List.enumFrom, extract_domain, pyStripWWW, pyLower,
      stripWWW, tldexDemo, upd]
  exact ⟨hpos, c1_amended tldexDemo scenarioInput hpos⟩

/-- Claim C2: for every input whose accumulated total weight is `0` (no
results, no links, or every link skipped), `compute_sov` returns an empty
snapshot, and a nonempty snapshot whose domains all carry zero `sov` does
not occur for such inputs. -/
theorem c2_empty_snapshot_of_zero_total (tldex : String → Extracted)
    (fetched : List (List SearchResult)) (h : totalOf tldex fetched = 0) :
    (compute_sov tldex fetched).domain_sov = [] ∧
    ¬ ((compute_sov tldex fetched).domain_sov ≠ [] ∧
       ∀ p ∈ (compute_sov tldex fetched).domain_sov, p.2 = 0) := by
  obtain ⟨htot, hposvals⟩ := goodState_runQueries tldex fetched
  have hraw : (runQueries tldex fetched).domain_sov = [] := by
    apply eq_nil_of_sumVals_zero hposvals
    rw [← htot]
    exact h
  have hempty : (compute_sov tldex fetched).domain_sov = [] := by
    simp [compute_sov, finalize, hraw]
  exact ⟨hempty, fun hc => hc.1 hempty⟩

/-- Witness for `c2_empty_snapshot_of_zero_total`: a run whose only apply
option has no `"link"` key accumulates total weight `0` and yields the
empty snapshot. -/
theorem c2_witness :
    totalOf tldexSimple noSignalInput = 0 ∧
    (compute_sov tldexSimple noSignalInput).domain_sov = [] := by
  have h : totalOf tldexSimple noSignalInput = 0 := by
    simp [totalOf, runQueries, processJobs, processOption, initState,
      noSignalInput, List.enumFrom]
  exact ⟨h, (c2_empty_snapshot_of_zero_total tldexSimple noSignalInput h).1⟩

/-! ## Uniform single-link runs (used to build concrete snapshots) -/

theorem toNat_ofNat_valid {n : ℕ} (h : n.isValidChar) : (Char.ofNat n).toNat = n := by
  rw [Char.ofNat, dif_pos h]
  rfl

theorem stripWWW_single (c : Char) : stripWWW [c] = [c] := by
  rw [stripWWW.eq_def]
  split <;> simp_all [stripWWW]

theorem stripWWW_pair (c1 c2 : Char) : stripWWW [c1, c2] = [c1, c2] := by
  rw [stripWWW.eq_def]
  split
  · rename_i rest heq
    simp at heq
  · rename_i c rest hno heq
    rw [List.cons.injEq] at heq
    rw [← heq.1, ← heq.2, stripWWW_single]
  · rename_i heq
    simp at heq

theorem toLower_eq_self (c : Char) (h : 90 < c.toNat) : c.toLower = c := by
  simp only [Char.toLower]
  rw [if_neg]
  omega

theorem bigDomains_nodup : bigDomains.Nodup := by
  unfold bigDomains
  refine List.Nodup.map_on ?_ (List.nodup_range 280)
  intro x hx y hy heq
  rw [List.mem_range] at hx hy
  have hx1 : (97 + x / 17).isValidChar := Or.inl (by omega)
  have hx2 : (97 + x % 17).isValidChar := Or.inl (by omega)
  have hy1 : (97 + y / 17).isValidChar := Or.inl (by omega)
  have hy2 : (97 + y % 17).isValidChar := Or.inl (by omega)
  have hc : Char.ofNat (97 + x / 17) = Char.ofNat (97 + y / 17) ∧
      Char.ofNat (97 + x % 17) = Char.ofNat (97 + y % 17) := by
    have hdata := congrArg String.data heq
    simpa using hdata
  have e1 := congrArg Char.toNat hc.1
  have e2 := congrArg Char.toNat hc.2
  rw [toNat_ofNat_valid hx1, toNat_ofNat_valid hy1] at e1
  rw [toNat_ofNat_valid hx2, toNat_ofNat_valid hy2] at e2
  omega

theorem bigDomains_stable : ∀ d ∈ bigDomains, extract_domain tldexSimple d = d := by
  intro d hd
  obtain ⟨i, hi, rfl⟩ := List.mem_map.mp hd
  rw [List.mem_range] at hi
  have h1 : (97 + i / 17).isValidChar := Or.inl (by omega)
  have h2 : (97 + i % 17).isValidChar := Or.inl (by omega)
  have t1 : (Char.ofNat (97 + i / 17)).toNat = 97 + i / 17 := toNat_ofNat_valid h1
  have t2 : (Char.ofNat (97 + i % 17)).toNat = 97 + i % 17 := toNat_ofNat_valid h2
  simp only [extract_domain, tldexSimple, ne_eq, not_true_eq_false, if_false,
    pyLower, pyStripWWW, List.map_cons, List.map_nil]
  rw [toLower_eq_self _ (by omega), toLower_eq_self _ (by omega), stripWWW_pair]

theorem foldl_uniform (tldex : String → Extracted) :
    ∀ (ds : List String) (st : SovState),
      (∀ d ∈ ds, extract_domain tldex d = d) →
      (∀ d ∈ ds, alookup d st.domain_sov = none) →
      ds.Nodup →
      ((uniformInput ds).foldl (processJobs tldex) st).domain_sov
          = st.domain_sov ++ ds.map (fun d => (d, (1 : ℚ))) ∧
      ((uniformInput ds).foldl (processJobs tldex) st).total_sov
          = st.total_sov + (ds.length : ℚ) := by
  intro ds
  induction ds with
  | nil => intro st _ _ _; simp [uniformInput]
  | cons d rest ih =>
    intro st hex hnone hnodup
    have hd : extract_domain tldex d = d := hex d (by simp)
    have hn : alookup d st.domain_sov = none := hnone d (by simp)
    have hnotmem : d ∉ rest := (List.nodup_cons.mp hnodup).1
    have hstep_sov :
        (processJobs tldex st [{ apply_options := [{ link := some d }] }]).domain_sov
          = st.domain_sov ++ [(d, (1 : ℚ))] := by
      simp [processJobs, List.enumFrom, processOption, hd,
        upd_of_alookup_none _ _ hn]
    have hstep_tot :
        (processJobs tldex st [{ apply_options := [{ link := some d }] }]).total_sov
          = st.total_sov + 1 := by
      simp [processJobs, List.enumFrom, processOption]
    have hmain := ih (processJobs tldex st [{ apply_options := [{ link := some d }] }])
      (fun d' hd' => hex d' (by simp [hd']))
      (fun d' hd' => by
        rw [hstep_sov, alookup_append_right _ (hnone d' (by simp [hd']))]
        have hne : ¬ d = d' := fun h => hnotmem (h ▸ hd')
        simp [alookup, hne])
      (List.nodup_cons.mp hnodup).2
    have hunf : uniformInput (d :: rest)
        = [{ apply_options := [{ link := some d }] }] :: uniformInput rest := by
      simp [uniformInput]
    rw [hunf, List.foldl_cons]
    refine ⟨?_, ?_⟩
    · rw [hmain.1, hstep_sov, List.append_assoc]
      simp
    · rw [hmain.2, hstep_tot]
      simp only [List.length_cons]
      push_cast
      ring

theorem compute_sov_uniform (tldex : String → Extracted) (ds : List String)
    (hex : ∀ d ∈ ds, extract_domain tldex d = d) (hnodup : ds.Nodup) :
    (runQueries tldex (uniformInput ds)).domain_sov
        = ds.map (fun d => (d, (1 : ℚ))) ∧
    totalOf tldex (uniformInput ds) = (ds.length : ℚ) := by
  have h := foldl_uniform tldex ds initState hex
    (by intro d _; simp [initState, alookup]) hnodup
  constructor
  · have := h.1
    simpa [runQueries, initState] using this
  · have := h.2
    simpa [totalOf, runQueries, initState] using this

theorem snapshot_uniform (tldex : String → Extracted) (ds : List String)
    (hex : ∀ d ∈ ds, extract_domain tldex d = d) (hnodup : ds.Nodup)
    (hne : ds ≠ []) :
    (compute_sov tldex (uniformInput ds)).domain_sov
      = ds.map (fun d => (d, pyround 4 (1 / (ds.length : ℚ) * 100))) := by
  obtain ⟨hsov, htot⟩ := compute_sov_uniform tldex ds hex hnodup
  have hlen : 0 < (ds.length : ℚ) := by
    have h0 : 0 < ds.length := List.length_pos.mpr hne
    exact_mod_cast h0
  have hpos : 0 < (runQueries tldex (uniformInput ds)).total_sov := by
    show 0 < totalOf tldex (uniformInput ds)
    rw [htot]; exact hlen
  have hfin : (compute_sov tldex (uniformInput ds)).domain_sov
      = (runQueries tldex (uniformInput ds)).domain_sov.map
          (fun p => (p.1,
            pyround 4 (p.2 / (runQueries tldex (uniformInput ds)).total_sov * 100))) := by
    simp [compute_sov, finalize, hpos]
  rw [hfin, hsov]
  have htot' : (runQueries tldex (uniformInput ds)).total_sov = (ds.length : ℚ) := htot
  rw [htot']
  simp [List.map_map, Function.comp_def]

theorem sumVals_map_const (ds : List String) (c : ℚ) :
    sumVals (ds.map (fun d => (d, c))) = (ds.length : ℚ) * c := by
  induction ds with
  | nil => simp [sumVals]
  | cons d rest ih =>
    simp only [List.map_cons, sumVals, List.sum_cons, List.length_cons] at ih ⊢
    rw [ih]
    push_cast
    ring

/-- Claim C1, counterexample: a run of 280 single-result, single-link
queries with 280 distinct two-letter ASCII lower-case domains (on which
Python's `str.lower()` is the identity, so the real pipeline keeps all
280 keys distinct) has positive total weight, yet the sum of the rounded
`sov` values is `280 * round(100/280, 4) = 99.988`, which differs from
100 by `0.012 > 0.01`; the fixed tolerance of the claim fails for
snapshots with more than 200 domains. -/
theorem c1_counterexample :
    0 < totalOf tldexSimple (uniformInput bigDomains) ∧
    ¬ |sumVals (compute_sov tldexSimple (uniformInput bigDomains)).domain_sov - 100|
        ≤ 1/100 := by
  obtain ⟨hsov, htot⟩ :=
    compute_sov_uniform tldexSimple bigDomains bigDomains_stable bigDomains_nodup
  have hlen : bigDomains.length = 280 := by
    simp [bigDomains]
  have hne : bigDomains ≠ [] := by
    intro h
    rw [h] at hlen
    simp at hlen
  have hsnap := snapshot_uniform tldexSimple bigDomains bigDomains_stable
    bigDomains_nodup hne
  rw [hlen] at htot hsnap
  push_cast at htot hsnap
  have hval : pyround 4 (1 / (280 : ℚ) * 100) = 3571/10000 := by
    rw [pyround, roundHalfEven,
      show ((1 / (280 : ℚ) * 100) * 10 ^ 4) = 25000/7 by norm_num,
      Int.fract]
    norm_num [Int.floor_eq_iff]
  rw [hval] at hsnap
  constructor
  · rw [htot]
    norm_num
  · rw [hsnap, sumVals_map_const, hlen]
    push_cast
    rw [show |(280 : ℚ) * (3571/10000) - 100| = 3/250 by
      rw [abs_of_nonpos (by norm_num)]
      norm_num]
    norm_num

/-- Claim C4, counterexample: with three equal-weight domains and total
weight 3, the snapshot's `sov` for `"a"` is `round(100/3, 4) = 33.3333`,
whereas the claimed formula `round(raw/total*100, 2)` gives `33.33`; the
batch aggregator rounds to 4 decimal places, not 2. -/
theorem c4_counterexample :
    0 < totalOf tldexSimple threeInput ∧
    ("a", (333333/10000 : ℚ)) ∈ (compute_sov tldexSimple threeInput).domain_sov ∧
    alookup "a" (runQueries tldexSimple threeInput).domain_sov = some 1 ∧
    pyround 2 ((1 : ℚ) / totalOf tldexSimple threeInput * 100) = 3333/100 ∧
    (333333/10000 : ℚ) ≠ 3333/100 := by
  have hex : ∀ d ∈ (["a", "b", "c"] : List String),
      extract_domain tldexSimple d = d := by decide
  have hnodup : (["a", "b", "c"] : List String).Nodup := by decide
  obtain ⟨hsov, htot⟩ := compute_sov_uniform tldexSimple ["a", "b", "c"] hex hnodup
  have htot3 : totalOf tldexSimple threeInput = 3 := by
    rw [show threeInput = uniformInput ["a", "b", "c"] from rfl, htot]
    norm_num
  have hsnap := snapshot_uniform tldexSimple ["a", "b", "c"] hex hnodup (by simp)
  have hval : pyround 4 (1 / ((["a", "b", "c"] : List String).length : ℚ) * 100)
      = 333333/10000 := by
    rw [show ((["a", "b", "c"] : List String).length : ℚ) = 3 by norm_num]
    rw [pyround, roundHalfEven,
      show ((1 / (3 : ℚ) * 100) * 10 ^ 4) = 1000000/3 by norm_num,
      Int.fract]
    norm_num [Int.floor_eq_iff]
  refine ⟨by rw [htot3]; norm_num, ?_, ?_, ?_, by norm_num⟩
  · rw [show threeInput = uniformInput ["a", "b", "c"] from rfl, hsnap, hval]
    simp
  · rw [show threeInput = uniformInput ["a", "b", "c"] from rfl, hsov]
    simp [alookup]
  · rw [htot3, pyround, roundHalfEven,
      show ((1 : ℚ) / 3 * 100 * 10 ^ 2) = 10000/3 by norm_num,
      Int.fract]
    norm_num [Int.floor_eq_iff]

/-- Claim C4, amended: when the total weight is strictly positive, each
domain's emitted share is `round(rawWeight[domain] / totalWeight * 100, 4)`
— rounded to 4 decimal places (the 2-decimal rounding of the spec happens
only later, at persistence time, in `save_to_db`). -/
theorem c4_amended (tldex : String → Extracted)
    (fetched : List (List SearchResult)) (hpos : 0 < totalOf tldex fetched) :
    (compute_sov tldex fetched).domain_sov
      = (runQueries tldex fetched).domain_sov.map
          (fun p => (p.1, pyround 4 (p.2 / totalOf tldex fetched * 100))) := by
  have hpos' : 0 < (runQueries tldex fetched).total_sov := hpos
  simp [compute_sov, finalize, totalOf, hpos']

/-- Witness for `c4_amended` at the end-to-end scenario input. -/
theorem c4_amended_witness :
    0 < totalOf tldexDemo scenarioInput ∧
    (compute_sov tldexDemo scenarioInput).domain_sov
      = (runQueries tldexDemo scenarioInput).domain_sov.map
          (fun p => (p.1, pyround 4 (p.2 / totalOf tldexDemo scenarioInput * 100))) := by
  have hpos : 0 < totalOf tldexDemo scenarioInput := by
    norm_num [totalOf, runQueries, processJobs, processOption, initState,
      scenarioInput, List.enumFrom, extract_domain, pyStripWWW, pyLower,
      stripWWW, tldexDemo, upd]
  exact ⟨hpos, c4_amended tldexDemo scenarioInput hpos⟩

/-- Claim C3: under the default rank-reciprocal weighting, the two-query
scenario (query A: one result at rank 1 linking to `a.com` then `b.com`;
query B: the relevant result at rank 2 with one link to `a.com`) produces
raw weights `a.com = 1.5`, `b.com = 0.5`, total `2.0`, and normalized
shares `sov(a.com) = 75.0`, `sov(b.com) = 25.0`. -/
theorem c3_end_to_end_scenario :
    (runQueries tldexDemo scenarioInput).domain_sov
        = [("a.com", 3/2), ("b.com", 1/2)] ∧
    totalOf tldexDemo scenarioInput = 2 ∧
    (compute_sov tldexDemo scenarioInput).domain_sov
        = [("a.com", 75), ("b.com", 25)] := by
  have hraw : (runQueries tldexDemo scenarioInput).domain_sov
      = [("a.com", 3/2), ("b.com", 1/2)] := by
    norm_num [runQueries, processJobs, processOption, initState, scenarioInput,
      List.enumFrom, extract_domain, pyStripWWW, pyLower, stripWWW, tldexDemo, upd]
    all_goals decide
  have htot : totalOf tldexDemo scenarioInput = 2 := by
    norm_num [totalOf, runQueries, processJobs, processOption, initState,
      scenarioInput, List.enumFrom, extract_domain, pyStripWWW, pyLower,
      stripWWW, tldexDemo, upd]
  have hpos : 0 < (runQueries tldexDemo scenarioInput).total_sov := by
    show 0 < totalOf tldexDemo scenarioInput
    rw [htot]
    norm_num
  have h75 : pyround 4 ((3 : ℚ)/2 / 2 * 100) = 75 := by
    rw [pyround, roundHalfEven]
    norm_num [Int.fract, Int.floor_eq_iff]
  have h25 : pyround 4 ((2 : ℚ)⁻¹ / 2 * 100) = 25 := by
    rw [show ((2 : ℚ)⁻¹ / 2 * 100) = 25 by norm_num, pyround, roundHalfEven]
    norm_num [Int.fract, Int.floor_eq_iff]
  refine ⟨hraw, htot, ?_⟩
  have htot' : (runQueries tldexDemo scenarioInput).total_sov = 2 := htot
  simp [compute_sov, finalize, hpos, hraw, htot', h75, h25]

/-- Claim C5 evaluated at a failing input: the code does not skip links
whose URL normalizes to the empty domain.  With one result whose options
link to `"a"` and to the empty URL, the accumulator records the
empty-string key with raw weight `0.5`, which also inflates the total to
`1.5`, and the empty domain appears in the snapshot with
`sov = 33.3333`. -/
theorem c5_empty_domain_recorded :
    extract_domain tldexSimple "" = "" ∧
    (runQueries tldexSimple emptyDomainInput).domain_sov
        = [("a", 1), ("", 1/2)] ∧
    totalOf tldexSimple emptyDomainInput = 3/2 ∧
    ("", (333333/10000 : ℚ)) ∈ (compute_sov tldexSimple emptyDomainInput).domain_sov := by
  have hext : extract_domain tldexSimple "" = "" := by decide
  have hraw : (runQueries tldexSimple emptyDomainInput).domain_sov
      = [("a", 1), ("", 1/2)] := by
    norm_num [runQueries, processJobs, processOption, initState, emptyDomainInput,
      List.enumFrom, extract_domain, pyStripWWW, pyLower, stripWWW, tldexSimple,
      upd]
    rw [if_neg (by decide)]
    norm_num [Prod.ext_iff]
    all_goals decide
  have htot : totalOf tldexSimple emptyDomainInput = 3/2 := by
    norm_num [totalOf, runQueries, processJobs, processOption, initState,
      emptyDomainInput, List.enumFrom, extract_domain, pyStripWWW, pyLower,
      stripWWW, tldexSimple, upd]
  have hpos : 0 < (runQueries tldexSimple emptyDomainInput).total_sov := by
    show 0 < totalOf tldexSimple emptyDomainInput
    rw [htot]
    norm_num
  have hval : pyround 4 ((2 : ℚ)⁻¹ / (3/2) * 100) = 333333/10000 := by
    rw [pyround, roundHalfEven,
      show ((2 : ℚ)⁻¹ / (3/2) * 100 * 10 ^ 4) = 1000000/3 by norm_num,
      Int.fract]
    norm_num [Int.floor_eq_iff]
  refine ⟨hext, hraw, htot, ?_⟩
  have htot' : (runQueries tldexSimple emptyDomainInput).total_sov = 3/2 := htot
  simp [compute_sov, finalize, hpos, hraw, htot', hval]

/-- Claim C6, counterexample: the operative `compute_sov` has no
`try`/`except` around the fetch, so a failing fetch for the first query
makes the whole run raise instead of skipping that query and processing
the remaining one. -/
theorem c6_counterexample :
    compute_sovE tldexSimple [Except.error "fetch failed", Except.ok [oneJob]]
        = Except.error "fetch failed" ∧
    (compute_sovE tldexSimple
        [Except.error "fetch failed", Except.ok [oneJob]]).isOk = false := by
  constructor <;> rfl

/-- Claim C6, amended: a fetch failure for any query aborts the entire
run — the exception propagates out of `compute_sov` past any queries not
yet processed (the earlier `try`/`except`-with-`continue` definition of
`compute_sov` in the file is shadowed by the later definition and is dead
code). -/
theorem c6_amended (tldex : String → Extracted)
    (pre post : List (Except String (List SearchResult))) (e : String)
    (hpre : ∀ x ∈ pre, ∃ jobs, x = Except.ok jobs) :
    compute_sovE tldex (pre ++ Except.error e :: post) = Except.error e := by
  suffices h : ∀ (l : List (Except String (List SearchResult))),
      (∀ x ∈ l, ∃ jobs, x = Except.ok jobs) → ∀ st,
      runQueriesE tldex st (l ++ Except.error e :: post) = Except.error e by
    unfold compute_sovE
    rw [h pre hpre initState]
    rfl
  intro l
  induction l with
  | nil => intro _ st; rfl
  | cons x xs ih =>
    intro hl st
    obtain ⟨jobs, rfl⟩ := hl x (by simp)
    exact ih (fun y hy => hl y (by simp [hy])) (processJobs tldex st jobs)

/-- Witness for `c6_amended`: one successful query followed by a failing
fetch aborts the run with that error. -/
theorem c6_amended_witness :
    compute_sovE tldexSimple [Except.ok [oneJob], Except.error "boom"]
        = Except.error "boom" :=
  c6_amended tldexSimple [Except.ok [oneJob]] [] "boom"
    (by intro x hx; simp at hx; exact ⟨[oneJob], hx⟩)

/-- Claim C9, counterexample: the inline weight expression `1 / rank`
applied to the invalid rank `-1` (which is `≤ 0`) yields the negative
weight `-1` rather than rejecting the entry with an `InvalidRank` error:
no rank validation exists in the code. -/
theorem c9_counterexample :
    verticalWeight (-1) = some (-1) ∧ ((-1 : ℤ) ≤ 0) ∧ ((-1 : ℚ) < 0) := by
  refine ⟨?_, by norm_num, by norm_num⟩
  rw [verticalWeight, if_neg (by norm_num)]
  simp only [Option.some.injEq]
  push_cast
  norm_num

/-- Claim C9, amended: rank validation is unnecessary and absent — every
rank `compute_sov` feeds to the weight expression comes from 1-based
enumeration and is `≥ 1`, where the expression equals `1/r`; on ranks the
code never produces, `1 / rank` would yield a `ZeroDivisionError` at `0`
(not an `InvalidRank` rejection) and a negative weight below `0`; for
valid ranks the weights are strictly decreasing:
`verticalWeight 1 > verticalWeight 2 > verticalWeight 5`. -/
theorem c9_amended :
    (∀ (jobs : List SearchResult) (p : ℕ × SearchResult),
        p ∈ List.enumFrom 1 jobs → 1 ≤ p.1) ∧
    (∀ n : ℕ, 1 ≤ n → verticalWeight (n : ℤ) = some (1 / (n : ℚ))) ∧
    (∀ r : ℤ, r < 0 → ∃ w, verticalWeight r = some w ∧ w < 0) ∧
    verticalWeight 0 = none ∧
    (∃ w1 w2 w5, verticalWeight 1 = some w1 ∧ verticalWeight 2 = some w2 ∧
      verticalWeight 5 = some w5 ∧ w2 < w1 ∧ w5 < w2) := by
  refine ⟨?_, ?_, ?_, ?_, ?_⟩
  · intro jobs p hp
    exact enumFrom_fst_ge jobs 1 p hp
  · intro n hn
    rw [verticalWeight, if_neg (by exact_mod_cast Nat.one_le_iff_ne_zero.mp hn)]
    push_cast
    rfl
  · intro r hr
    refine ⟨1 / (r : ℚ), ?_, ?_⟩
    · rw [verticalWeight, if_neg (by omega)]
    · apply one_div_neg.mpr
      exact_mod_cast hr
  · rfl
  · refine ⟨1, 1/2, 1/5, ?_, ?_, ?_, by norm_num, by norm_num⟩ <;>
      · rw [verticalWeight, if_neg (by norm_num)]
        push_cast
        norm_num

/-- Witness for `c9_amended`: the first enumerated rank of a one-result
page is `1`, `verticalWeight 3 = 1/3`, and `verticalWeight (-2)` is some
negative weight. -/
theorem c9_amended_witness :
    (1 ≤ ((1 : ℕ), oneJob).1) ∧
    verticalWeight ((3 : ℕ) : ℤ) = some (1 / ((3 : ℕ) : ℚ)) ∧
    (∃ w, verticalWeight (-2) = some w ∧ w < 0) := by
  refine ⟨?_, ?_, ?_⟩
  · exact c9_amended.1 [oneJob] (1, oneJob) (by simp [List.enumFrom])
  · exact c9_amended.2.1 3 (by norm_num)
  · exact c9_amended.2.2.1 (-2) (by norm_num)

/-! ## The appearance-count invariant (claim C10) -/

/-- The per-domain alignment of the three rank/count accumulators: a
domain is present in all three dicts or in none, and when present its
appearance count equals both rank-list lengths and is at least 1. -/
def CountsAligned (st : SovState) : Prop :=
  ∀ d : String,
    (alookup d st.domain_appearances = none ∧
     alookup d st.domain_v_rank = none ∧
     alookup d st.domain_h_rank = none) ∨
    (∃ n vr hr, alookup d st.domain_appearances = some n ∧
      alookup d st.domain_v_rank = some vr ∧
      alookup d st.domain_h_rank = some hr ∧
      n = vr.length ∧ n = hr.length ∧ 1 ≤ n)

theorem countsAligned_processOption (tldex : String → Extracted)
    (r hh : ℕ) (st : SovState) (opt : ApplyOption)
    (hst : CountsAligned st) :
    CountsAligned (processOption tldex r hh st opt) := by
  cases hopt : opt.link with
  | none => simpa [processOption, hopt] using hst
  | some url =>
    intro d
    simp only [processOption, hopt]
    by_cases hd : extract_domain tldex url = d
    · right
      rcases hst d with ⟨h1, h2, h3⟩ | ⟨n, vr, hr, h1, h2, h3, h4, h5, h6⟩
      · refine ⟨1, [r], [hh], ?_, ?_, ?_, by simp, by simp, le_refl 1⟩
        · rw [alookup_upd, if_pos hd, hd, h1]; rfl
        · rw [alookup_upd, if_pos hd, hd, h2]; rfl
        · rw [alookup_upd, if_pos hd, hd, h3]; rfl
      · refine ⟨n + 1, vr ++ [r], hr ++ [hh], ?_, ?_, ?_, ?_, ?_, by omega⟩
        · rw [alookup_upd, if_pos hd, hd, h1]; rfl
        · rw [alookup_upd, if_pos hd, hd, h2]; rfl
        · rw [alookup_upd, if_pos hd, hd, h3]; rfl
        · simp [h4]
        · simp [h5]
    · rcases hst d with ⟨h1, h2, h3⟩ | ⟨n, vr, hr, h1, h2, h3, h4, h5, h6⟩
      · left
        refine ⟨?_, ?_, ?_⟩ <;> rw [alookup_upd, if_neg hd]
        exacts [h1, h2, h3]
      · right
        refine ⟨n, vr, hr, ?_, ?_, ?_, h4, h5, h6⟩ <;> rw [alookup_upd, if_neg hd]
        exacts [h1, h2, h3]

/-- Claim C10: for every domain recorded by a run, the appearance count
equals the length of its vertical-rank list and of its horizontal-rank
list, and all are at least 1 (so both lists are nonempty and the
average-rank divisions are by a nonzero length). -/
theorem c10_counts_aligned (tldex : String → Extracted)
    (fetched : List (List SearchResult)) (d : String) (n : ℕ)
    (hlk : alookup d (runQueries tldex fetched).domain_appearances = some n) :
    ∃ vr hr, alookup d (runQueries tldex fetched).domain_v_rank = some vr ∧
      alookup d (runQueries tldex fetched).domain_h_rank = some hr ∧
      n = vr.length ∧ n = hr.length ∧ 1 ≤ n ∧ vr ≠ [] ∧ hr ≠ [] := by
  have hal := runQueries_preserve CountsAligned tldex
    (fun r hh st opt _ _ hst => countsAligned_processOption tldex r hh st opt hst)
    (by intro d'; left; simp [initState, alookup]) fetched
  rcases hal d with ⟨h1, _, _⟩ | ⟨n', vr, hr, h1, h2, h3, h4, h5, h6⟩
  · rw [hlk] at h1
    exact absurd h1 (by simp)
  · rw [hlk] at h1
    have hn : n' = n := by
      injection h1 with hv
      exact hv.symm
    subst hn
    refine ⟨vr, hr, h2, h3, h4, h5, h6, ?_, ?_⟩
    · intro hnil
      rw [hnil] at h4
      simp at h4
      omega
    · intro hnil
      rw [hnil] at h5
      simp at h5
      omega

/-- Witness for `c10_counts_aligned`: in the end-to-end scenario `a.com`
appears twice, with vertical-rank and horizontal-rank lists of length 2. -/
theorem c10_witness :
    alookup "a.com" (runQueries tldexDemo scenarioInput).domain_appearances
        = some 2 ∧
    ∃ vr hr,
      alookup "a.com" (runQueries tldexDemo scenarioInput).domain_v_rank = some vr ∧
      alookup "a.com" (runQueries tldexDemo scenarioInput).domain_h_rank = some hr ∧
      2 = vr.length ∧ 2 = hr.length ∧ 1 ≤ 2 ∧ vr ≠ [] ∧ hr ≠ [] := by
  have hlk : alookup "a.com"
      (runQueries tldexDemo scenarioInput).domain_appearances = some 2 := by
    decide
  exact ⟨hlk, c10_counts_aligned tldexDemo scenarioInput "a.com" 2 hlk⟩

/-- Claim C7: the `groupby(domain, date)` reduction of the historical
aggregator — mean of `sov`, sum of `appearances`, mean of the two rank
fields — is invariant under permutation of the input records at every
key, so duplicate same-day rows are averaged rather than resolved by
"last write wins". -/
theorem c7_duplicate_reduction_perm_invariant (rs₁ rs₂ : List HistRecord)
    (hperm : rs₁.Perm rs₂) (d : String) (t : ℕ) :
    aggAt rs₁ d t = aggAt rs₂ d t := by
  have hm : (matching rs₁ d t).Perm (matching rs₂ d t) := hperm.filter _
  have hlen : (matching rs₁ d t).length = (matching rs₂ d t).length :=
    hm.length_eq
  have hsov : ((matching rs₁ d t).map (·.sov)).sum
      = ((matching rs₂ d t).map (·.sov)).sum := (hm.map _).sum_eq
  have happ : ((matching rs₁ d t).map (·.appearances)).sum
      = ((matching rs₂ d t).map (·.appearances)).sum := (hm.map _).sum_eq
  have hv : ((matching rs₁ d t).map (·.avg_v_rank)).sum
      = ((matching rs₂ d t).map (·.avg_v_rank)).sum := (hm.map _).sum_eq
  have hh : ((matching rs₁ d t).map (·.avg_h_rank)).sum
      = ((matching rs₂ d t).map (·.avg_h_rank)).sum := (hm.map _).sum_eq
  by_cases hempty : matching rs₁ d t = []
  · have hempty2 : matching rs₂ d t = [] := by
      rw [hempty] at hlen
      exact (List.length_eq_zero.mp hlen.symm)
  
    simp [aggAt, hempty, hempty2]
  · have hempty2 : matching rs₂ d t ≠ [] := by
      intro h2
      rw [h2] at hlen
      exact hempty (List.length_eq_zero.mp hlen)
    simp [aggAt, hempty, hempty2, hlen, hsov, happ, hv, hh]

/-- Witness for `c7_duplicate_reduction_perm_invariant`: same-day SoV
samples 10 and 20 for domain `x` reduce — in either input order — to the
mean 15 (with appearances summed to 8 and rank fields averaged). -/
theorem c7_witness :
    aggAt [histRec10, histRec20] "x" 5 = aggAt [histRec20, histRec10] "x" 5 ∧
    aggAt [histRec10, histRec20] "x" 5
      = some { sov := 15, appearances := 8, avg_v_rank := 3/2, avg_h_rank := 2 } := by
  constructor
  · exact c7_duplicate_reduction_perm_invariant [histRec10, histRec20]
      [histRec20, histRec10] (List.Perm.swap histRec20 histRec10 []) "x" 5
  · norm_num [aggAt, matching, histRec10, histRec20, List.filter]
    intro h
    simp at h

/-! ## The display ordering of the historical table (claim C8) -/

theorem sorted_le_getLast :
    ∀ (l : List ℕ), List.Sorted (· ≤ ·) l → ∀ (hne : l ≠ []) (x : ℕ),
      x ∈ l → x ≤ l.getLast hne := by
  intro l
  induction l with
  | nil => intro _ hne; exact absurd rfl hne
  | cons a as ih =>
    intro hs hne x hx
    cases as with
    | nil =>
      simp at hx
      subst hx
      simp [List.getLast]
    | cons b bs =>
      rw [List.getLast_cons (by simp : (b :: bs) ≠ [])]
      rcases List.mem_cons.mp hx with rfl | hx'
      · have hmem : (b :: bs).getLast (by simp) ∈ b :: bs :=
          List.getLast_mem (by simp)
        exact (List.sorted_cons.mp hs).1 _ hmem
      · exact ih (List.sorted_cons.mp hs).2 (by simp) x hx'

/-- Claim C8, amended: for every nonempty filtered record set, the column
the table is sorted by (`df_sov.columns[-1]`) is the maximum date of the
filtered range, and every possible display order is a permutation of the
domain index that is non-increasing in that column's SoV; the code
supplies no secondary sort key, so the relative order of equal-SoV rows
is not specified (pandas' default quicksort is unstable). -/
theorem c8_amended (rs : List HistRecord) (s e : ℕ)
    (h : filterRange s e rs ≠ []) :
    ∃ t, mostRecent (filterRange s e rs) = some t ∧
      (∀ r ∈ filterRange s e rs, r.date ≤ t) ∧
      (∃ r ∈ filterRange s e rs, r.date = t) ∧
      ∀ out, SortValuesOutput (filterRange s e rs) out →
        out.Perm (domainsOf (filterRange s e rs)) ∧
        List.Chain' (fun a b =>
          sovCell (filterRange s e rs) b t
            ≤ sovCell (filterRange s e rs) a t) out := by
  set fs := filterRange s e rs with hfs
  have hdne : fs.map (·.date) ≠ [] := by
    simpa using h
  have hsorted : List.Sorted (· ≤ ·) (sortedDates fs) :=
    List.sorted_insertionSort _ _
  have hperm : (sortedDates fs).Perm ((fs.map (·.date)).dedup) :=
    List.perm_insertionSort _ _
  have hsne : sortedDates fs ≠ [] := by
    obtain ⟨y, hy⟩ := List.exists_mem_of_ne_nil _ hdne
    have hyd : y ∈ sortedDates fs := hperm.mem_iff.mpr (List.mem_dedup.mpr hy)
    exact List.ne_nil_of_mem hyd
  refine ⟨(sortedDates fs).getLast hsne, ?_, ?_, ?_, ?_⟩
  · rw [mostRecent, List.getLast?_eq_getLast _ hsne]
  · intro r hr
    have hmem : r.date ∈ sortedDates fs :=
      hperm.mem_iff.mpr (List.mem_dedup.mpr (List.mem_map_of_mem _ hr))
    exact sorted_le_getLast _ hsorted hsne _ hmem
  · have hmemt : (sortedDates fs).getLast hsne ∈ sortedDates fs :=
      List.getLast_mem hsne
    have hmemd : (sortedDates fs).getLast hsne ∈ fs.map (·.date) :=
      List.mem_dedup.mp (hperm.mem_iff.mp hmemt)
    obtain ⟨r, hr, hrt⟩ := List.mem_map.mp hmemd
    exact ⟨r, hr, hrt⟩
  · intro out hout
    have hmr : mostRecent fs = some ((sortedDates fs).getLast hsne) := by
      rw [mostRecent, List.getLast?_eq_getLast _ hsne]
    simp only [SortValuesOutput, hmr] at hout
    exact hout

/-- Claim C8, counterexample: with two domains tied at SoV 10 on the most
recent date, the order `["b", "a"]` satisfies everything the code's
`sort_values` call guarantees, yet differs from the claimed deterministic
order with ties broken by domain name ascending (`["a", "b"]`): the code
implements no tie-break. -/
theorem c8_counterexample :
    tieRecords ≠ [] ∧
    SortValuesOutput tieRecords ["b", "a"] ∧
    ["b", "a"] ≠ specTieBreakOrder tieRecords := by
  have hmr : mostRecent tieRecords = some 1 := by decide
  have hdom : domainsOf tieRecords = ["a", "b"] := by decide
  have hma : matching tieRecords "a" 1
      = [{ domain := "a", date := 1, sov := 10, appearances := 1,
           avg_v_rank := 1, avg_h_rank := 1 }] := by
    simp [matching, tieRecords, List.filter_cons, List.filter_nil]
  have hmb : matching tieRecords "b" 1
      = [{ domain := "b", date := 1, sov := 10, appearances := 1,
           avg_v_rank := 1, avg_h_rank := 1 }] := by
    simp [matching, tieRecords, List.filter_cons, List.filter_nil]
  have hcella : sovCell tieRecords "a" 1 = 10 := by
    rw [sovCell, aggAt]
    simp only [hma]
    norm_num
  have hcellb : sovCell tieRecords "b" 1 = 10 := by
    rw [sovCell, aggAt]
    simp only [hmb]
    norm_num
  refine ⟨by simp [tieRecords], ?_, ?_⟩
  · simp only [SortValuesOutput, hmr]
    constructor
    · rw [hdom]
      exact List.Perm.swap "a" "b" []
    · simp [List.chain'_cons, hcella, hcellb]
  · intro heq
    have hr : (sovCell tieRecords "b" 1 < sovCell tieRecords "a" 1 ∨
        (sovCell tieRecords "a" 1 = sovCell tieRecords "b" 1 ∧
          strLeB "a" "b" = true)) := by
      right
      exact ⟨by rw [hcella, hcellb], by decide⟩
    have hord : specTieBreakOrder tieRecords = ["a", "b"] := by
      simp only [specTieBreakOrder, hmr, hdom, List.insertionSort,
        List.orderedInsert]
      rw [if_pos hr]
    rw [hord] at heq
    simp at heq

/-- Witness for `c8_amended` on the tied records filtered to the range
`[0, 9]`. -/
theorem c8_amended_witness :
    ∃ t, mostRecent (filterRange 0 9 tieRecords) = some t ∧
      (∀ r ∈ filterRange 0 9 tieRecords, r.date ≤ t) ∧
      (∃ r ∈ filterRange 0 9 tieRecords, r.date = t) ∧
      ∀ out, SortValuesOutput (filterRange 0 9 tieRecords) out →
        out.Perm (domainsOf (filterRange 0 9 tieRecords)) ∧
        List.Chain' (fun a b =>
          sovCell (filterRange 0 9 tieRecords) b t
            ≤ sovCell (filterRange 0 9 tieRecords) a t) out :=
  c8_amended tieRecords 0 9 (by decide)
